import Mathlib

/-!
# University Management System: the B+ tree student index

Shallow embedding of `BPlusNode` / `BPlusTree` from
`src/university_management_sys.cpp` (lines 17-132).

* Nodes live in a heap (`List (BPlusNode V)`); a `shared_ptr` is an
  `Option Nat` (`none` is `nullptr`, `some a` is the node at address `a`).
  `make_shared` allocates at the end of the heap.
* Keys are `Int` (the application instantiates `BPlusTree<int, Student>`).
* Operations return `Except Fault _`; a `Fault` stands for behaviour that the
  C++ program leaves undefined (null dereference, index out of range) or for a
  loop that does not terminate.
-/

namespace UMS

/-- Outcomes that are undefined behaviour (or divergence) in the C++ program. -/
inductive Fault where
  | nullDeref
  | outOfRange
  | diverges
  deriving DecidableEq, Repr

/-- `struct BPlusNode` (source lines 18-28). -/
structure BPlusNode (V : Type) where
  isLeaf : Bool
  keys : List Int
  values : List V
  children : List (Option Nat)
  next : Option Nat
  deriving DecidableEq, Repr

/-- `class BPlusTree` (source lines 32-37): the heap of nodes, `root` and `order`. -/
structure BPlusTree (V : Type) where
  heap : List (BPlusNode V)
  root : Option Nat
  order : Int
  deriving DecidableEq, Repr

/-- `BPlusNode(bool leaf = true)`: empty vectors, `next(nullptr)`. -/
def BPlusNode.fresh {V : Type} (leaf : Bool) : BPlusNode V :=
  ⟨leaf, [], [], [], none⟩

/-- `v.insert(v.begin() + pos, x)` for `pos ≤ v.size()`. -/
def vinsert {α : Type} (xs : List α) (pos : Nat) (x : α) : List α :=
  xs.take pos ++ x :: xs.drop pos

/-- `v.resize(n)`: truncates, or pads with value-initialised elements `d`. -/
def vresize {α : Type} (xs : List α) (n : Nat) (d : α) : List α :=
  xs.take n ++ List.replicate (n - xs.length) d

/-- `std::lower_bound(keys.begin(), keys.end(), key) - keys.begin()` on a range
sorted by `<`: the index of the first element that is not less than `key`.
Every vector it is called on by a reachable tree is sorted
(`Shape.insertAll_sorted`). -/
def lower_bound (keys : List Int) (key : Int) : Nat :=
  (keys.takeWhile (fun k => decide (k < key))).length

/-- The comparison `leaf->keys.size() >= order` (source line 112): `order` is an
`int` and is converted to the 64-bit unsigned `size_t` before comparing. -/
def sizeGeOrder (size : Nat) (order : Int) : Bool :=
  decide (order % 2 ^ 64 ≤ (size : Int))

namespace BPlusTree

variable {V : Type}

/-- The leaf loop of `split` (source lines 47-51):
`for (i = mid; i < keys.size(); i++) push_back(keys[i]), push_back(values[i])`.
The first argument counts the remaining iterations. -/
def splitCopyLeaf (node : BPlusNode V) : Nat → Nat → BPlusNode V → Except Fault (BPlusNode V)
  | 0, _, newNode => .ok newNode
  | n + 1, i, newNode =>
    match node.keys[i]?, node.values[i]? with
    | some k, some v =>
      splitCopyLeaf node n (i + 1)
        { newNode with keys := newNode.keys ++ [k], values := newNode.values ++ [v] }
    | _, _ => .error .outOfRange

/-- The internal-node loop of `split` (source lines 62-66):
`for (i = mid + 1; i < keys.size(); i++) push_back(keys[i]), push_back(children[i])`. -/
def splitCopyInternal (node : BPlusNode V) : Nat → Nat → BPlusNode V → Except Fault (BPlusNode V)
  | 0, _, newNode => .ok newNode
  | n + 1, i, newNode =>
    match node.keys[i]?, node.children[i]? with
    | some k, some c =>
      splitCopyInternal node n (i + 1)
        { newNode with keys := newNode.keys ++ [k], children := newNode.children ++ [c] }
    | _, _ => .error .outOfRange

/-- `BPlusTree::split` (source lines 39-72) on the node at address `a`.
In the leaf case the new node is linked after `node`; in the internal case the
new node is referenced by nobody and is destroyed when `split` returns. -/
def split [Inhabited V] (heap : List (BPlusNode V)) (a : Nat) :
    Except Fault (List (BPlusNode V)) :=
  match heap[a]? with
  | none => .error .nullDeref
  | some node =>
    let newAddr := heap.length
    let mid := node.keys.length / 2
    if node.isLeaf then
      match splitCopyLeaf node (node.keys.length - mid) mid (BPlusNode.fresh node.isLeaf) with
      | .error e => .error e
      | .ok newNode =>
        let newNode := { newNode with next := node.next }
        let node := { node with
          keys := vresize node.keys mid 0
          values := vresize node.values mid default
          next := some newAddr }
        .ok (heap.set a node ++ [newNode])
    else
      match splitCopyInternal node (node.keys.length - (mid + 1)) (mid + 1)
          (BPlusNode.fresh node.isLeaf) with
      | .error e => .error e
      | .ok _ =>
        match node.children.length with
        | 0 => .error .outOfRange
        | _ + 1 =>
          let node := { node with
            keys := vresize node.keys mid 0
            children := vresize node.children (mid + 1) none }
          .ok (heap.set a node)

/-- The inner loop of `findLeaf` (source lines 79-83):
`while (pos < keys.size() && keys[pos] <= key) pos++`. The first argument
bounds the number of iterations; `keys.length` always suffices. -/
def findLeafScan (keys : List Int) (key : Int) : Nat → Nat → Nat
  | 0, pos => pos
  | fuel + 1, pos =>
    match keys[pos]? with
    | some k => if k ≤ key then findLeafScan keys key fuel (pos + 1) else pos
    | none => pos

/-- The child index chosen by `findLeaf` at a node with the given keys. -/
def findLeafPos (keys : List Int) (key : Int) : Nat :=
  findLeafScan keys key keys.length 0

/-- The outer loop of `findLeaf` (source lines 77-85):
`while (current && !current->isLeaf) current = current->children[pos]`.
The first argument bounds the number of descents. -/
def findLeafLoop (heap : List (BPlusNode V)) (key : Int) :
    Nat → Option Nat → Except Fault (Option Nat)
  | _, none => .ok none
  | 0, some c =>
    match heap[c]? with
    | none => .error .nullDeref
    | some node => if node.isLeaf then .ok (some c) else .error .diverges
  | fuel + 1, some c =>
    match heap[c]? with
    | none => .error .nullDeref
    | some node =>
      if node.isLeaf then .ok (some c)
      else
        match node.children[findLeafPos node.keys key]? with
        | none => .error .outOfRange
        | some child => findLeafLoop heap key fuel child

/-- `BPlusTree::findLeaf` (source lines 74-87). A descent through distinct nodes
is never longer than the heap. -/
def findLeaf (t : BPlusTree V) (key : Int) : Except Fault (Option Nat) :=
  findLeafLoop t.heap key t.heap.length t.root

/-- `BPlusTree(int order = 4)` (source lines 90-93): never throws. -/
def new (order : Int) : Except Fault (BPlusTree V) :=
  .ok { heap := [BPlusNode.fresh true], root := some 0, order := order }

/-- `BPlusTree::insert` (source lines 95-116). -/
def insert [Inhabited V] (t : BPlusTree V) (key : Int) (value : V) :
    Except Fault (BPlusTree V) :=
  let t : BPlusTree V :=
    match t.root with
    | some _ => t
    | none => { t with heap := t.heap ++ [BPlusNode.fresh true], root := some t.heap.length }
  match findLeaf t key with
  | .error e => .error e
  | .ok none => .error .nullDeref
  | .ok (some leaf) =>
    match t.heap[leaf]? with
    | none => .error .nullDeref
    | some node =>
      let pos := lower_bound node.keys key
      if node.values.length < pos then .error .outOfRange
      else
        let node := { node with
          keys := vinsert node.keys pos key
          values := vinsert node.values pos value }
        let heap := t.heap.set leaf node
        if sizeGeOrder node.keys.length t.order then
          match split heap leaf with
          | .error e => .error e
          | .ok heap => .ok { t with heap := heap }
        else .ok { t with heap := heap }

/-- `BPlusTree::search` (source lines 118-131); the result is the value pointed
to, `none` for `nullptr`. -/
def search (t : BPlusTree V) (key : Int) : Except Fault (Option V) :=
  match findLeaf t key with
  | .error e => .error e
  | .ok none => .ok none
  | .ok (some leaf) =>
    match t.heap[leaf]? with
    | none => .error .nullDeref
    | some node =>
      let it := lower_bound node.keys key
      match node.keys[it]? with
      | none => .ok none
      | some k =>
        if k = key then
          match node.values[it]? with
          | none => .error .outOfRange
          | some v => .ok (some v)
        else .ok none

/-- A sequence of `insert` calls, left to right. -/
def insertAll [Inhabited V] : BPlusTree V → List (Int × V) → Except Fault (BPlusTree V)
  | t, [] => .ok t
  | t, (k, v) :: rest =>
    match insert t k v with
    | .error e => .error e
    | .ok t => insertAll t rest

/-- Construct a tree of the given order and apply a sequence of inserts. -/
def run [Inhabited V] (order : Int) (ops : List (Int × V)) : Except Fault (BPlusTree V) :=
  match new order with
  | .error e => .error e
  | .ok t => insertAll t ops

/-- Walk the `next` links from a node, collecting the nodes visited. -/
def chainFrom (heap : List (BPlusNode V)) : Nat → Option Nat → Except Fault (List (BPlusNode V))
  | _, none => .ok []
  | 0, some _ => .error .diverges
  | fuel + 1, some c =>
    match heap[c]? with
    | none => .error .nullDeref
    | some node =>
      match chainFrom heap fuel node.next with
      | .error e => .error e
      | .ok rest => .ok (node :: rest)

/-- The leaf chain read head-to-tail: the root, then each node reached by `next`. -/
def leafChain (t : BPlusTree V) : Except Fault (List (BPlusNode V)) :=
  chainFrom t.heap t.heap.length t.root

/-- The keys on a chain of nodes, in chain order. -/
def chainKeys (nodes : List (BPlusNode V)) : List Int :=
  nodes.flatMap (fun n => n.keys)

/-- The (key, value) entries on a chain of nodes, in chain order. -/
def chainEntries (nodes : List (BPlusNode V)) : List (Int × V) :=
  nodes.flatMap (fun n => n.keys.zip n.values)


/-! ## Shape of the trees reachable by inserts

Only the root is ever written by `insert`, and a split appends one leaf to the
heap and links it directly after the root. A reachable tree is therefore
described by the root's two vectors and the split-off leaves, newest first. -/

/-- The root's vectors and the vectors of the split-off leaves (newest first). -/
structure Shape (V : Type) where
  rk : List Int
  rv : List V
  cs : List (List Int × List V)

/-- The `next` pointer to the node at address `n`, or `nullptr` for `n = 0`
(the root is never the target of a `next` link). -/
def nextPtr (n : Nat) : Option Nat :=
  if n = 0 then none else some n

/-- The split-off leaves as nodes, in chain order. -/
def chainNodes : List (List Int × List V) → List (BPlusNode V)
  | [] => []
  | kv :: rest => ⟨true, kv.1, kv.2, [], nextPtr rest.length⟩ :: chainNodes rest

/-- The root node of a shape. -/
def Shape.rootNode (s : Shape V) : BPlusNode V :=
  ⟨true, s.rk, s.rv, [], nextPtr s.cs.length⟩

/-- The heap of a shape: the root at address 0, then the leaves in creation order. -/
def Shape.heap (s : Shape V) : List (BPlusNode V) :=
  s.rootNode :: (chainNodes s.cs).reverse

/-- The tree described by a shape. -/
def Shape.tree (order : Int) (s : Shape V) : BPlusTree V :=
  ⟨s.heap, some 0, order⟩

/-- The effect of one `insert` on a shape. -/
def Shape.insert (order : Int) (s : Shape V) (key : Int) (value : V) : Shape V :=
  let pos := lower_bound s.rk key
  let rk := vinsert s.rk pos key
  let rv := vinsert s.rv pos value
  if sizeGeOrder rk.length order then
    ⟨rk.take (rk.length / 2), rv.take (rk.length / 2),
      (rk.drop (rk.length / 2), rv.drop (rk.length / 2)) :: s.cs⟩
  else ⟨rk, rv, s.cs⟩

/-- The effect of a sequence of inserts on a shape. -/
def Shape.insertAll (order : Int) : Shape V → List (Int × V) → Shape V
  | s, [] => s
  | s, (k, v) :: rest => Shape.insertAll order (Shape.insert order s k v) rest

/-- The shape of the freshly constructed tree. -/
def Shape.empty : Shape V := ⟨[], [], []⟩

/-- Well-formed shapes: in every leaf `keys` and `values` have equal length. -/
def Shape.WF (s : Shape V) : Prop :=
  s.rk.length = s.rv.length ∧ ∀ kv ∈ s.cs, kv.1.length = kv.2.length

/-- The (key, value) entries of a shape in chain order. -/
def Shape.entries (s : Shape V) : List (Int × V) :=
  s.rk.zip s.rv ++ s.cs.flatMap (fun kv => kv.1.zip kv.2)

/-- The number of (key, value) entries stored on the leaf chain (`count()` of
the specification, derived from a full scan). -/
def count (t : BPlusTree V) : Except Fault Nat :=
  match leafChain t with
  | .error e => .error e
  | .ok nodes => .ok (chainEntries nodes).length

/-- An internal node with keys 10, 20 and three children (a hand-built example;
`insert` never produces one). -/
def exampleInternal : BPlusNode Nat :=
  ⟨false, [10, 20], [], [some 1, some 2, some 3], none⟩

/-- A heap holding `exampleInternal` at address 0 and its three leaves. -/
def exampleHeap : List (BPlusNode Nat) :=
  [exampleInternal, ⟨true, [1], [1], [], some 2⟩, ⟨true, [10], [10], [], some 3⟩,
    ⟨true, [20], [20], [], none⟩]

/-! ## Loop lemmas -/

theorem splitCopyLeaf_eq (node : BPlusNode V) :
    ∀ (n i : Nat) (newNode : BPlusNode V),
      i + n ≤ node.keys.length → i + n ≤ node.values.length →
      splitCopyLeaf node n i newNode =
        .ok { newNode with
          keys := newNode.keys ++ (node.keys.drop i).take n
          values := newNode.values ++ (node.values.drop i).take n } := by
  intro n
  induction n with
  | zero => intro i newNode _ _; simp [splitCopyLeaf]
  | succ n ih =>
    intro i newNode hk hv
    have hik : i < node.keys.length := by omega
    have hiv : i < node.values.length := by omega
    rw [splitCopyLeaf]
    rw [List.getElem?_eq_getElem hik, List.getElem?_eq_getElem hiv]
    simp only
    rw [ih (i + 1) _ (by omega) (by omega)]
    simp only [List.append_assoc, List.singleton_append]
    rw [List.drop_eq_getElem_cons hik, List.drop_eq_getElem_cons hiv,
      List.take_succ_cons, List.take_succ_cons]

theorem vresize_of_le {α : Type} (xs : List α) (n : Nat) (d : α) (h : n ≤ xs.length) :
    vresize xs n d = xs.take n := by
  unfold vresize
  have : n - xs.length = 0 := by omega
  simp [this]

theorem length_vinsert {α : Type} (xs : List α) (pos : Nat) (x : α) (h : pos ≤ xs.length) :
    (vinsert xs pos x).length = xs.length + 1 := by
  unfold vinsert
  simp
  omega

theorem lower_bound_le (keys : List Int) (key : Int) :
    lower_bound keys key ≤ keys.length := by
  unfold lower_bound
  exact (List.takeWhile_prefix _).length_le

/-! ## `split` on a leaf -/

theorem split_leaf [Inhabited V] (heap : List (BPlusNode V)) (a : Nat) (node : BPlusNode V)
    (hnode : heap[a]? = some node) (hleaf : node.isLeaf = true)
    (hlen : node.keys.length = node.values.length) :
    split heap a =
      .ok (heap.set a
            { node with
              keys := node.keys.take (node.keys.length / 2)
              values := node.values.take (node.keys.length / 2)
              next := some heap.length }
          ++ [⟨true, node.keys.drop (node.keys.length / 2),
                node.values.drop (node.keys.length / 2), [], node.next⟩]) := by
  have hmid : node.keys.length / 2 ≤ node.keys.length := Nat.div_le_self _ _
  unfold split
  rw [hnode]
  simp only [hleaf, if_true]
  rw [splitCopyLeaf_eq node _ _ _ (by omega) (by omega)]
  simp only [BPlusNode.fresh, List.nil_append]
  rw [vresize_of_le _ _ _ hmid, vresize_of_le _ _ _ (by omega)]
  have h1 : (node.keys.drop (node.keys.length / 2)).take
      (node.keys.length - node.keys.length / 2) = node.keys.drop (node.keys.length / 2) := by
    apply List.take_of_length_le
    simp
  have h2 : (node.values.drop (node.keys.length / 2)).take
      (node.keys.length - node.keys.length / 2) = node.values.drop (node.keys.length / 2) := by
    apply List.take_of_length_le
    simp
    omega
  rw [h1, h2]

/-! ## The operations on a shape -/

theorem length_chainNodes (cs : List (List Int × List V)) :
    (chainNodes cs).length = cs.length := by
  induction cs with
  | nil => rfl
  | cons kv rest ih => simp [chainNodes, ih]

theorem Shape.length_heap (s : Shape V) : s.heap.length = s.cs.length + 1 := by
  simp [Shape.heap, length_chainNodes]

theorem Shape.findLeaf_tree (order : Int) (s : Shape V) (key : Int) :
    findLeaf (s.tree order) key = .ok (some 0) := by
  simp [findLeaf, Shape.tree, Shape.heap, findLeafLoop, Shape.rootNode]

theorem Shape.insert_tree [Inhabited V] (order : Int) (s : Shape V) (key : Int) (value : V)
    (hlen : s.rk.length = s.rv.length) :
    BPlusTree.insert (s.tree order) key value = .ok ((s.insert order key value).tree order) := by
  have hpos : lower_bound s.rk key ≤ s.rk.length := lower_bound_le _ _
  have hfind := Shape.findLeaf_tree order s key
  unfold BPlusTree.insert
  have hroot : (s.tree order).root = some 0 := rfl
  simp only [hroot, hfind]
  have hget : (s.tree order).heap[0]? = some s.rootNode := by
    simp [Shape.tree, Shape.heap]
  simp only [hget]
  have hnot : ¬ (s.rootNode.values.length < lower_bound s.rootNode.keys key) := by
    simp only [Shape.rootNode]
    omega
  rw [if_neg hnot]
  simp only [Shape.rootNode, Shape.tree, Shape.heap, List.set_cons_zero]
  unfold Shape.insert
  by_cases hge : sizeGeOrder (vinsert s.rk (lower_bound s.rk key) key).length order = true
  · simp only [hge, if_true]
    rw [split_leaf _ 0 _ (List.getElem?_cons_zero ..) rfl
      (by simp only; rw [length_vinsert _ _ _ hpos, length_vinsert _ _ _ (by omega), hlen])]
    simp [chainNodes, length_chainNodes, nextPtr]
  · simp [hge]

theorem Shape.search_tree (order : Int) (s : Shape V) (key : Int) :
    search (s.tree order) key =
      match s.rk[lower_bound s.rk key]? with
      | none => .ok none
      | some k =>
        if k = key then
          match s.rv[lower_bound s.rk key]? with
          | none => .error .outOfRange
          | some v => .ok (some v)
        else .ok none := by
  have hget : (s.tree order).heap[0]? = some s.rootNode := by
    simp [Shape.tree, Shape.heap]
  unfold search
  rw [Shape.findLeaf_tree]
  simp only [hget, Shape.rootNode]

theorem Shape.empty_WF : (Shape.empty : Shape V).WF := by
  simp [Shape.WF, Shape.empty]

theorem Shape.insert_WF (order : Int) (s : Shape V) (key : Int) (value : V) (h : s.WF) :
    (s.insert order key value).WF := by
  obtain ⟨hlen, hcs⟩ := h
  have hpos : lower_bound s.rk key ≤ s.rk.length := lower_bound_le _ _
  have h1 := length_vinsert s.rk _ key hpos
  have h2 := length_vinsert s.rv (lower_bound s.rk key) value (by omega)
  unfold Shape.insert
  by_cases hge : sizeGeOrder (vinsert s.rk (lower_bound s.rk key) key).length order = true
  · simp only [hge, if_true]
    refine ⟨?_, ?_⟩
    · simp only [List.length_take]
      omega
    · intro kv hkv
      rcases List.mem_cons.1 hkv with rfl | hkv
      · simp only [List.length_drop]
        omega
      · exact hcs kv hkv
  · simp only [hge]
    exact ⟨by simp only [Bool.false_eq_true, if_false]; omega, by simpa using hcs⟩

theorem Shape.insertAll_inv (order : Int) (P : Shape V → Prop)
    (hstep : ∀ s k v, P s → P (Shape.insert order s k v)) :
    ∀ (ops : List (Int × V)) (s : Shape V), P s → P (Shape.insertAll order s ops) := by
  intro ops
  induction ops with
  | nil => intro s hs; exact hs
  | cons kv rest ih =>
    intro s hs
    obtain ⟨k, v⟩ := kv
    exact ih _ (hstep s k v hs)

theorem Shape.insertAll_WF (order : Int) (ops : List (Int × V)) :
    (Shape.insertAll order (Shape.empty : Shape V) ops).WF :=
  Shape.insertAll_inv order Shape.WF (fun s k v h => Shape.insert_WF order s k v h) ops _
    Shape.empty_WF

theorem Shape.insertAll_tree [Inhabited V] (order : Int) :
    ∀ (ops : List (Int × V)) (s : Shape V), s.WF →
      BPlusTree.insertAll (s.tree order) ops = .ok ((Shape.insertAll order s ops).tree order) := by
  intro ops
  induction ops with
  | nil => intro s _; rfl
  | cons kv rest ih =>
    intro s hs
    obtain ⟨k, v⟩ := kv
    simp only [BPlusTree.insertAll, Shape.insertAll]
    rw [Shape.insert_tree order s k v hs.1]
    exact ih _ (Shape.insert_WF order s k v hs)

/-- Every tree reached from the empty tree by inserts is the tree of a shape. -/
theorem run_eq_shape [Inhabited V] (order : Int) (ops : List (Int × V)) :
    run order ops = .ok ((Shape.insertAll order Shape.empty ops).tree order) := by
  unfold run BPlusTree.new
  exact Shape.insertAll_tree order ops Shape.empty Shape.empty_WF

theorem chainFrom_chainNodes (root : BPlusNode V) :
    ∀ (cs : List (List Int × List V)) (extra : List (BPlusNode V)) (fuel : Nat),
      cs.length ≤ fuel →
      chainFrom (root :: ((chainNodes cs).reverse ++ extra)) fuel (nextPtr cs.length) =
        .ok (chainNodes cs) := by
  intro cs
  induction cs with
  | nil => intro extra fuel _; cases fuel <;> simp [chainFrom, nextPtr, chainNodes]
  | cons kv rest ih =>
    intro extra fuel hfuel
    obtain ⟨fuel, rfl⟩ : ∃ f, fuel = f + 1 := ⟨fuel - 1, by simp at hfuel; omega⟩
    have hnext : nextPtr (kv :: rest).length = some (rest.length + 1) := by
      simp [nextPtr]
    rw [hnext, chainFrom]
    have hget : (root :: ((chainNodes (kv :: rest)).reverse ++ extra))[rest.length + 1]? =
        some ⟨true, kv.1, kv.2, [], nextPtr rest.length⟩ := by
      simp only [chainNodes, List.reverse_cons, List.getElem?_cons_succ, List.append_assoc]
      rw [List.getElem?_append_right (by simp [length_chainNodes])]
      simp [length_chainNodes]
    rw [hget]
    simp only
    have hheap : root :: ((chainNodes (kv :: rest)).reverse ++ extra) =
        root :: ((chainNodes rest).reverse ++
          ((⟨true, kv.1, kv.2, [], nextPtr rest.length⟩ : BPlusNode V) :: extra)) := by
      simp [chainNodes]
    rw [hheap, ih _ fuel (by simp at hfuel; omega)]
    simp [chainNodes]

theorem Shape.leafChain_tree (order : Int) (s : Shape V) :
    leafChain (s.tree order) = .ok (s.rootNode :: chainNodes s.cs) := by
  unfold leafChain
  simp only [Shape.tree, Shape.length_heap]
  rw [chainFrom]
  have hget : s.heap[0]? = some s.rootNode := by simp [Shape.heap]
  rw [hget]
  simp only
  have h := chainFrom_chainNodes s.rootNode s.cs [] s.cs.length (le_refl _)
  rw [List.append_nil] at h
  have hnext : s.rootNode.next = nextPtr s.cs.length := rfl
  rw [hnext]
  unfold Shape.heap
  rw [h]

/-! ## Vector lemmas -/

theorem lower_bound_cons (a : Int) (l : List Int) (key : Int) :
    lower_bound (a :: l) key = if a < key then lower_bound l key + 1 else 0 := by
  unfold lower_bound
  by_cases h : a < key <;> simp [List.takeWhile_cons, h]

theorem vinsert_zero {α : Type} (l : List α) (x : α) : vinsert l 0 x = x :: l := by
  simp [vinsert]

theorem vinsert_cons_succ {α : Type} (a : α) (l : List α) (pos : Nat) (x : α) :
    vinsert (a :: l) (pos + 1) x = a :: vinsert l pos x := by
  simp [vinsert]

theorem mem_vinsert {α : Type} (l : List α) (pos : Nat) (x y : α) :
    y ∈ vinsert l pos x ↔ y = x ∨ y ∈ l := by
  unfold vinsert
  rw [List.mem_append, List.mem_cons]
  constructor
  · rintro (h | h | h)
    · exact Or.inr (List.mem_of_mem_take h)
    · exact Or.inl h
    · exact Or.inr (List.mem_of_mem_drop h)
  · rintro (h | h)
    · exact Or.inr (Or.inl h)
    · rw [← List.take_append_drop pos l, List.mem_append] at h
      rcases h with h | h
      · exact Or.inl h
      · exact Or.inr (Or.inr h)

theorem vinsert_perm {α : Type} (l : List α) (pos : Nat) (x : α) :
    List.Perm (vinsert l pos x) (x :: l) := by
  unfold vinsert
  have h : List.Perm (l.take pos ++ x :: l.drop pos) (x :: (l.take pos ++ l.drop pos)) :=
    List.perm_middle
  rwa [List.take_append_drop] at h

theorem zip_vinsert {α β : Type} (l : List α) (l' : List β) (pos : Nat) (x : α) (y : β)
    (hlen : l.length = l'.length) :
    (vinsert l pos x).zip (vinsert l' pos y) = vinsert (l.zip l') pos (x, y) := by
  unfold vinsert
  rw [List.zip_append (by simp [hlen])]
  simp only [List.zip_cons_cons, List.zip_eq_zipWith, List.take_zipWith, List.drop_zipWith,
    List.zipWith_cons_cons]

theorem sorted_vinsert_lower_bound (l : List Int) (key : Int)
    (h : l.Pairwise (fun a b => a ≤ b)) :
    (vinsert l (lower_bound l key) key).Pairwise (fun a b => a ≤ b) := by
  induction l with
  | nil => simp [vinsert, lower_bound]
  | cons a l ih =>
    rw [List.pairwise_cons] at h
    rw [lower_bound_cons]
    by_cases hlt : a < key
    · rw [if_pos hlt, vinsert_cons_succ, List.pairwise_cons]
      refine ⟨?_, ih h.2⟩
      intro b hb
      rcases (mem_vinsert _ _ _ _).1 hb with rfl | hb
      · exact le_of_lt hlt
      · exact h.1 b hb
    · rw [if_neg hlt, vinsert_zero, List.pairwise_cons]
      refine ⟨?_, List.pairwise_cons.2 h⟩
      intro b hb
      rcases List.mem_cons.1 hb with rfl | hb
      · exact not_lt.1 hlt
      · exact le_trans (not_lt.1 hlt) (h.1 b hb)

/-- On a sorted vector, `lower_bound` lands on `key` exactly when `key` occurs. -/
theorem getElem?_lower_bound_iff (l : List Int) (key : Int)
    (h : l.Pairwise (fun a b => a ≤ b)) :
    l[lower_bound l key]? = some key ↔ key ∈ l := by
  induction l with
  | nil => simp [lower_bound]
  | cons a l ih =>
    rw [List.pairwise_cons] at h
    rw [lower_bound_cons]
    by_cases hlt : a < key
    · rw [if_pos hlt, List.getElem?_cons_succ, ih h.2, List.mem_cons]
      constructor
      · exact Or.inr
      · rintro (h' | h')
        · omega
        · exact h'
    · rw [if_neg hlt, List.getElem?_cons_zero, List.mem_cons]
      constructor
      · intro h'
        exact Or.inl (Option.some.inj h').symm
      · rintro (h' | h')
        · rw [h']
        · have := h.1 key h'
          have : a = key := by omega
          rw [this]

/-! ## Invariants of the reachable shapes -/

theorem chainEntries_chainNodes (cs : List (List Int × List V)) :
    chainEntries (chainNodes cs) = cs.flatMap (fun kv => kv.1.zip kv.2) := by
  induction cs with
  | nil => rfl
  | cons kv rest ih =>
    simp only [chainEntries, chainNodes, List.flatMap_cons] at ih ⊢
    rw [ih]

theorem Shape.chainEntries_eq (s : Shape V) :
    chainEntries (s.rootNode :: chainNodes s.cs) = s.entries := by
  have h := chainEntries_chainNodes s.cs
  simp only [chainEntries, List.flatMap_cons] at h ⊢
  rw [h]
  rfl

theorem Shape.insert_entries_perm (order : Int) (s : Shape V) (key : Int) (value : V)
    (hlen : s.rk.length = s.rv.length) :
    List.Perm (s.insert order key value).entries ((key, value) :: s.entries) := by
  have hz := zip_vinsert s.rk s.rv (lower_bound s.rk key) key value hlen
  have hp := vinsert_perm (s.rk.zip s.rv) (lower_bound s.rk key) (key, value)
  unfold Shape.insert Shape.entries
  by_cases hge : sizeGeOrder (vinsert s.rk (lower_bound s.rk key) key).length order = true
  · simp only [hge, if_true, List.flatMap_cons]
    rw [← List.append_assoc]
    simp only [List.zip_eq_zipWith, ← List.take_zipWith, ← List.drop_zipWith,
      List.take_append_drop]
    simp only [← List.zip_eq_zipWith]
    rw [hz]
    exact (hp.append_right _)
  · simp only [hge, Bool.false_eq_true, if_false]
    rw [hz]
    exact (hp.append_right _)

theorem Shape.insertAll_entries_perm (order : Int) :
    ∀ (ops : List (Int × V)) (s : Shape V), s.WF →
      List.Perm (Shape.insertAll order s ops).entries (s.entries ++ ops) := by
  intro ops
  induction ops with
  | nil => intro s _; simp [Shape.insertAll]
  | cons kv rest ih =>
    intro s hs
    obtain ⟨k, v⟩ := kv
    simp only [Shape.insertAll]
    refine (ih _ (Shape.insert_WF order s k v hs)).trans ?_
    refine ((Shape.insert_entries_perm order s k v hs.1).append_right rest).trans ?_
    simp only [List.cons_append]
    exact List.perm_middle.symm

theorem Shape.insert_sorted (order : Int) (s : Shape V) (key : Int) (value : V)
    (h : s.rk.Pairwise (fun a b => a ≤ b)) :
    (s.insert order key value).rk.Pairwise (fun a b => a ≤ b) := by
  have hs := sorted_vinsert_lower_bound s.rk key h
  unfold Shape.insert
  by_cases hge : sizeGeOrder (vinsert s.rk (lower_bound s.rk key) key).length order = true
  · simp only [hge, if_true]
    exact hs.sublist (List.take_sublist _ _)
  · simp only [hge, Bool.false_eq_true, if_false]
    exact hs

theorem Shape.insertAll_sorted (order : Int) (ops : List (Int × V)) :
    (Shape.insertAll order (Shape.empty : Shape V) ops).rk.Pairwise (fun a b => a ≤ b) :=
  Shape.insertAll_inv order (fun s => s.rk.Pairwise (fun a b => a ≤ b))
    (fun s k v h => Shape.insert_sorted order s k v h) ops _ List.Pairwise.nil

/-! ## The child-selection scan of `findLeaf` -/

theorem findLeafScan_eq (keys : List Int) (key : Int) :
    ∀ (fuel pos : Nat), keys.length ≤ pos + fuel →
      findLeafScan keys key fuel pos =
        pos + ((keys.drop pos).takeWhile (fun k => decide (k ≤ key))).length := by
  intro fuel
  induction fuel with
  | zero =>
    intro pos h
    simp [findLeafScan, List.drop_eq_nil_of_le (show keys.length ≤ pos by omega)]
  | succ fuel ih =>
    intro pos h
    rw [findLeafScan]
    by_cases hpos : pos < keys.length
    · rw [List.getElem?_eq_getElem hpos, List.drop_eq_getElem_cons hpos]
      simp only
      by_cases hle : keys[pos] ≤ key
      · rw [if_pos hle, ih (pos + 1) (by omega), List.takeWhile_cons]
        simp only [hle, decide_True, if_true, List.length_cons]
        omega
      · rw [if_neg hle, List.takeWhile_cons]
        simp [hle]
    · have hge : keys.length ≤ pos := by omega
      rw [List.getElem?_eq_none hge, List.drop_eq_nil_of_le hge]
      simp

theorem findLeafPos_eq (keys : List Int) (key : Int) :
    findLeafPos keys key = (keys.takeWhile (fun k => decide (k ≤ key))).length := by
  unfold findLeafPos
  rw [findLeafScan_eq keys key keys.length 0 (by omega)]
  simp

theorem findLeafPos_cons (a : Int) (l : List Int) (key : Int) :
    findLeafPos (a :: l) key = if a ≤ key then findLeafPos l key + 1 else 0 := by
  simp only [findLeafPos_eq, List.takeWhile_cons]
  by_cases h : a ≤ key <;> simp [h]

theorem findLeafPos_le (keys : List Int) (key : Int) :
    findLeafPos keys key ≤ keys.length := by
  rw [findLeafPos_eq]
  exact (List.takeWhile_prefix _).length_le

theorem findLeafPos_left (keys : List Int) (key : Int) :
    findLeafPos keys key = 0 ∨
      ∃ k, keys[findLeafPos keys key - 1]? = some k ∧ k ≤ key := by
  induction keys with
  | nil => left; simp [findLeafPos_eq]
  | cons a l ih =>
    rw [findLeafPos_cons]
    by_cases h : a ≤ key
    · right
      rw [if_pos h]
      rcases ih with h0 | ⟨k, hk, hle⟩
      · exact ⟨a, by simp [h0], h⟩
      · refine ⟨k, ?_, hle⟩
        have hpos : findLeafPos l key ≠ 0 := by
          intro h0
          rw [h0] at hk
          have hl := findLeafPos_le l key
          rw [h0] at hl
          cases l with
          | nil => simp at hk
          | cons b l' =>
            rw [findLeafPos_cons] at h0
            by_cases hb : b ≤ key
            · rw [if_pos hb] at h0; omega
            · simp at hk; omega
        obtain ⟨m, hm⟩ : ∃ m, findLeafPos l key = m + 1 := ⟨findLeafPos l key - 1, by omega⟩
        rw [hm] at hk ⊢
        simpa using hk
    · left
      rw [if_neg h]

theorem findLeafPos_right (keys : List Int) (key : Int) :
    findLeafPos keys key = keys.length ∨
      ∃ k, keys[findLeafPos keys key]? = some k ∧ key < k := by
  induction keys with
  | nil => left; simp [findLeafPos_eq]
  | cons a l ih =>
    rw [findLeafPos_cons]
    by_cases h : a ≤ key
    · rw [if_pos h]
      rcases ih with h0 | ⟨k, hk, hlt⟩
      · left; simp [h0]
      · right; exact ⟨k, by simpa using hk, hlt⟩
    · right
      rw [if_neg h]
      exact ⟨a, by simp, by omega⟩

theorem findLeafPos_count (keys : List Int) (key : Int)
    (h : keys.Pairwise (fun a b => a ≤ b)) :
    findLeafPos keys key = keys.countP (fun k => decide (k ≤ key)) := by
  induction keys with
  | nil => simp [findLeafPos_eq]
  | cons a l ih =>
    rw [List.pairwise_cons] at h
    rw [findLeafPos_cons, List.countP_cons]
    by_cases hle : a ≤ key
    · simp [hle, ih h.2]
    · rw [if_neg hle]
      have hnone : l.countP (fun k => decide (k ≤ key)) = 0 := by
        rw [List.countP_eq_zero]
        intro b hb
        have := h.1 b hb
        simp only [decide_eq_true_eq]
        omega
      simp [hle, hnone]

/-- C8. Child-selection rule of `findLeaf`: at an internal node with `n` keys in
non-decreasing order and `n + 1` children, the index `pos` chosen by the scan
satisfies `pos ≤ n`, so `children[pos]` is in range and is the node `findLeaf`
descends to; `pos = 0` or `keys[pos-1] ≤ key`; `pos = n` or `key < keys[pos]`;
and `pos` is the number of node keys that are `≤ key`. -/
theorem findLeafPos_spec (heap : List (BPlusNode V)) (c : Nat) (node : BPlusNode V)
    (key : Int) (fuel : Nat)
    (hnode : heap[c]? = some node)
    (hinternal : node.isLeaf = false)
    (hsorted : node.keys.Pairwise (fun a b => a ≤ b))
    (hchildren : node.children.length = node.keys.length + 1) :
    findLeafPos node.keys key ≤ node.keys.length ∧
    (∃ child, node.children[findLeafPos node.keys key]? = some child ∧
      findLeafLoop heap key (fuel + 1) (some c) = findLeafLoop heap key fuel child) ∧
    (findLeafPos node.keys key = 0 ∨
      ∃ k, node.keys[findLeafPos node.keys key - 1]? = some k ∧ k ≤ key) ∧
    (findLeafPos node.keys key = node.keys.length ∨
      ∃ k, node.keys[findLeafPos node.keys key]? = some k ∧ key < k) ∧
    findLeafPos node.keys key = node.keys.countP (fun k => decide (k ≤ key)) := by
  have hle := findLeafPos_le node.keys key
  refine ⟨hle, ?_, findLeafPos_left _ _, findLeafPos_right _ _, findLeafPos_count _ _ hsorted⟩
  have hlt : findLeafPos node.keys key < node.children.length := by omega
  refine ⟨_, List.getElem?_eq_getElem hlt, ?_⟩
  rw [findLeafLoop, hnode]
  simp only [hinternal, Bool.false_eq_true, if_false, List.getElem?_eq_getElem hlt]

/-- Witness for C8: at the internal node with keys 10, 20 and three children,
the key 15 selects child 1. -/
theorem findLeafPos_spec_witness :
    exampleHeap[0]? = some exampleInternal ∧
    exampleInternal.isLeaf = false ∧
    exampleInternal.keys.Pairwise (fun a b => a ≤ b) ∧
    exampleInternal.children.length = exampleInternal.keys.length + 1 ∧
    findLeafPos exampleInternal.keys 15 = 1 ∧
    (findLeafPos exampleInternal.keys 15 ≤ exampleInternal.keys.length ∧
    (∃ child, exampleInternal.children[findLeafPos exampleInternal.keys 15]? = some child ∧
      findLeafLoop exampleHeap 15 (3 + 1) (some 0) = findLeafLoop exampleHeap 15 3 child) ∧
    (findLeafPos exampleInternal.keys 15 = 0 ∨
      ∃ k, exampleInternal.keys[findLeafPos exampleInternal.keys 15 - 1]? = some k ∧ k ≤ 15) ∧
    (findLeafPos exampleInternal.keys 15 = exampleInternal.keys.length ∨
      ∃ k, exampleInternal.keys[findLeafPos exampleInternal.keys 15]? = some k ∧ 15 < k) ∧
    findLeafPos exampleInternal.keys 15 =
      exampleInternal.keys.countP (fun k => decide (k ≤ 15))) :=
  ⟨by decide, rfl, by decide, by decide, by decide,
    findLeafPos_spec exampleHeap 0 exampleInternal 15 3
      (by decide) rfl (by decide) (by decide)⟩

/-! ## Lookup in a reachable tree -/

theorem Shape.search_tree_WF (order : Int) (s : Shape V) (key : Int)
    (hlen : s.rk.length = s.rv.length) :
    search (s.tree order) key =
      .ok (if s.rk[lower_bound s.rk key]? = some key then s.rv[lower_bound s.rk key]?
        else none) := by
  rw [Shape.search_tree]
  by_cases hlt : lower_bound s.rk key < s.rk.length
  · have hlt' : lower_bound s.rk key < s.rv.length := by omega
    rw [List.getElem?_eq_getElem hlt, List.getElem?_eq_getElem hlt']
    simp only [Option.some.injEq]
    split <;> rfl
  · rw [List.getElem?_eq_none (by omega)]
    simp

theorem Shape.search_found (order : Int) (s : Shape V) (key : Int)
    (hlen : s.rk.length = s.rv.length) (hsorted : s.rk.Pairwise (fun a b => a ≤ b))
    (hmem : key ∈ s.rk) :
    ∃ v, search (s.tree order) key = .ok (some v) ∧ (key, v) ∈ s.rk.zip s.rv := by
  have hget := (getElem?_lower_bound_iff s.rk key hsorted).2 hmem
  have hlt : lower_bound s.rk key < s.rk.length := by
    by_contra hge
    rw [List.getElem?_eq_none (by omega)] at hget
    exact Option.noConfusion hget
  have hlt' : lower_bound s.rk key < s.rv.length := by omega
  refine ⟨s.rv[lower_bound s.rk key], ?_, ?_⟩
  · rw [Shape.search_tree_WF order s key hlen, if_pos hget, List.getElem?_eq_getElem hlt']
  · apply List.getElem?_mem (n := lower_bound s.rk key)
    rw [List.getElem?_zip_eq_some]
    exact ⟨hget, List.getElem?_eq_getElem hlt'⟩

theorem Shape.search_absent (order : Int) (s : Shape V) (key : Int)
    (hlen : s.rk.length = s.rv.length) (hmem : key ∉ s.rk) :
    search (s.tree order) key = .ok none := by
  rw [Shape.search_tree_WF order s key hlen, if_neg]
  intro h
  exact hmem (List.getElem?_mem h)

theorem mem_chainNodes (cs : List (List Int × List V)) (node : BPlusNode V)
    (h : node ∈ chainNodes cs) :
    node.isLeaf = true ∧ node.children = [] ∧ (node.keys, node.values) ∈ cs := by
  induction cs with
  | nil => simp [chainNodes] at h
  | cons kv rest ih =>
    simp only [chainNodes, List.mem_cons] at h
    rcases h with rfl | h
    · simp
    · obtain ⟨h1, h2, h3⟩ := ih h
      exact ⟨h1, h2, List.mem_cons_of_mem _ h3⟩

theorem Shape.mem_heap (s : Shape V) (node : BPlusNode V) (h : node ∈ s.heap) :
    node = s.rootNode ∨ node ∈ chainNodes s.cs := by
  simpa [Shape.heap] using h

theorem Shape.getElem?_heap_succ (s : Shape V) (i : Nat) (node : BPlusNode V)
    (h : s.heap[i + 1]? = some node) : node ∈ chainNodes s.cs := by
  simp only [Shape.heap, List.getElem?_cons_succ] at h
  exact List.mem_reverse.1 (List.getElem?_mem h)

/-- C10. Root stays a leaf: after any sequence of inserts applied to the empty
tree (of any order) the root is still the leaf at address 0 allocated by the
constructor, with no children; no node of the heap is internal; `findLeaf`
returns the root for every key; `search k` returns a found result exactly when
`k` is among the root leaf's own keys, and what it returns is an entry of the
root leaf, so an entry that a split moved out of the root is not found. -/
theorem root_stays_leaf [Inhabited V] (order : Int) (ops : List (Int × V)) :
    ∃ t root, run order ops = .ok t ∧
      t.root = some 0 ∧ t.heap[0]? = some root ∧
      root.isLeaf = true ∧ root.children = [] ∧
      (∀ node ∈ t.heap, node.isLeaf = true ∧ node.children = []) ∧
      (∀ key, findLeaf t key = .ok t.root) ∧
      (∀ key, key ∈ root.keys →
        ∃ v, search t key = .ok (some v) ∧ (key, v) ∈ root.keys.zip root.values) ∧
      (∀ key, key ∉ root.keys → search t key = .ok none) := by
  have hWF := Shape.insertAll_WF order ops
  have hsorted := Shape.insertAll_sorted order ops
  refine ⟨_, (Shape.insertAll order Shape.empty ops).rootNode, run_eq_shape order ops,
    rfl, ?_, rfl, rfl, ?_, ?_, ?_, ?_⟩
  · simp [Shape.tree, Shape.heap]
  · intro node hnode
    rcases Shape.mem_heap _ node hnode with rfl | h
    · exact ⟨rfl, rfl⟩
    · exact ⟨(mem_chainNodes _ _ h).1, (mem_chainNodes _ _ h).2.1⟩
  · intro key
    exact Shape.findLeaf_tree order _ key
  · intro key hkey
    exact Shape.search_found order _ key hWF.1 hsorted hkey
  · intro key hkey
    exact Shape.search_absent order _ key hWF.1 hkey

/-! ## Absent keys -/

theorem Shape.rk_subset_ops (order : Int) (ops : List (Int × V)) (key : Int)
    (hmem : key ∈ (Shape.insertAll order (Shape.empty : Shape V) ops).rk) :
    key ∈ ops.map Prod.fst := by
  have hWF := Shape.insertAll_WF order ops
  have hperm := Shape.insertAll_entries_perm order ops (Shape.empty : Shape V) Shape.empty_WF
  have hfst := List.map_fst_zip _ _ (le_of_eq hWF.1)
  rw [← hfst] at hmem
  have hent : key ∈ (Shape.insertAll order (Shape.empty : Shape V) ops).entries.map Prod.fst := by
    unfold Shape.entries
    rw [List.map_append, List.mem_append]
    exact Or.inl hmem
  have h := (hperm.map Prod.fst).subset hent
  simpa [Shape.entries, Shape.empty] using h

/-- C4. Absent key lookup: for every tree reached from the empty tree (of any
order) by any sequence of inserts, possibly empty, and every key that was
never inserted, `search` completes without a fault and returns not-found. -/
theorem search_absent_key [Inhabited V] (order : Int) (ops : List (Int × V)) (key : Int)
    (habsent : key ∉ ops.map Prod.fst) :
    ∃ t, run order ops = .ok t ∧ search t key = .ok none := by
  refine ⟨_, run_eq_shape order ops, ?_⟩
  apply Shape.search_absent order _ key (Shape.insertAll_WF order ops).1
  intro hmem
  exact habsent (Shape.rk_subset_ops order ops key hmem)

/-- Witness for C4: after inserting 1, 2, 3, 4 with order 4 the key 7 is absent. -/
theorem search_absent_key_witness :
    (7 : Int) ∉ [((1 : Int), "a"), (2, "b"), (3, "c"), (4, "d")].map Prod.fst ∧
    ∃ t, run 4 [((1 : Int), "a"), (2, "b"), (3, "c"), (4, "d")] = .ok t ∧
      search t 7 = .ok none :=
  ⟨by decide, search_absent_key 4 [(1, "a"), (2, "b"), (3, "c"), (4, "d")] 7 (by decide)⟩

/-! ## Occupancy -/

theorem sizeGeOrder_iff (size : Nat) (order : Int) (h0 : 0 ≤ order) (h64 : order < 2 ^ 64) :
    sizeGeOrder size order = true ↔ order ≤ (size : Int) := by
  unfold sizeGeOrder
  rw [Int.emod_eq_of_lt h0 h64]
  simp

theorem Shape.insert_sized (order : Int) (h1 : 1 ≤ order) (h64 : order < 2 ^ 64)
    (s : Shape V) (key : Int) (value : V)
    (h : (s.rk.length : Int) < order ∧ ∀ kv ∈ s.cs, (kv.1.length : Int) = order - order / 2) :
    ((s.insert order key value).rk.length : Int) < order ∧
      ∀ kv ∈ (s.insert order key value).cs, (kv.1.length : Int) = order - order / 2 := by
  obtain ⟨hroot, hcs⟩ := h
  have hlen := length_vinsert s.rk _ key (lower_bound_le s.rk key)
  unfold Shape.insert
  by_cases hge : sizeGeOrder (vinsert s.rk (lower_bound s.rk key) key).length order = true
  · simp only [hge, if_true]
    rw [sizeGeOrder_iff _ _ (by omega) h64] at hge
    refine ⟨?_, ?_⟩
    · simp only [List.length_take]
      omega
    · intro kv hkv
      rcases List.mem_cons.1 hkv with rfl | hkv
      · simp only [List.length_drop]
        omega
      · exact hcs kv hkv
  · simp only [hge, Bool.false_eq_true, if_false]
    rw [sizeGeOrder_iff _ _ (by omega) h64] at hge
    exact ⟨by omega, hcs⟩

/-- C6. Occupancy invariant: for every order `≥ 3` (an `int`) and every sequence
of inserts applied to the empty tree, every node other than the root holds at
least `ceil(order/2) - 1` and at most `order - 1` keys. -/
theorem occupancy_non_root [Inhabited V] (order : Int) (h3 : 3 ≤ order)
    (hint : order < 2 ^ 31) (ops : List (Int × V)) :
    ∃ t, run order ops = .ok t ∧
      ∀ i node, t.heap[i]? = some node → some i ≠ t.root →
        (order + 1) / 2 - 1 ≤ (node.keys.length : Int) ∧
          (node.keys.length : Int) ≤ order - 1 := by
  have hsized := Shape.insertAll_inv order
    (fun s : Shape V =>
      (s.rk.length : Int) < order ∧ ∀ kv ∈ s.cs, (kv.1.length : Int) = order - order / 2)
    (fun s k v h => Shape.insert_sized order (by omega) (by omega) s k v h) ops Shape.empty
    ⟨by simp [Shape.empty]; omega, by simp [Shape.empty]⟩
  refine ⟨_, run_eq_shape order ops, ?_⟩
  intro i node hnode hi
  cases i with
  | zero => exact absurd rfl hi
  | succ i =>
    have hmem := Shape.getElem?_heap_succ _ i node hnode
    have hkeys := hsized.2 _ (mem_chainNodes _ _ hmem).2.2
    simp only at hkeys
    omega

/-- Witness for C6: order 4, the keys 1 to 6. -/
theorem occupancy_non_root_witness :
    (3 : Int) ≤ 4 ∧ (4 : Int) < 2 ^ 31 ∧
    ∃ t, run 4 [((1 : Int), "a"), (2, "b"), (3, "c"), (4, "d"), (5, "e"), (6, "f")] = .ok t ∧
      ∀ i node, t.heap[i]? = some node → some i ≠ t.root →
        ((4 : Int) + 1) / 2 - 1 ≤ (node.keys.length : Int) ∧
          (node.keys.length : Int) ≤ 4 - 1 :=
  ⟨by decide, by decide,
    occupancy_non_root 4 (by decide) (by decide)
      [(1, "a"), (2, "b"), (3, "c"), (4, "d"), (5, "e"), (6, "f")]⟩

/-! ## Entries on the leaf chain -/

/-- C9. No entry is lost or invented: for every order and every sequence of
inserts applied to the empty tree, the leaf chain from the root visits every
node of the heap, the (key, value) pairs on it are a permutation of the pairs
passed to `insert`, and `keys` and `values` have equal length in every leaf;
a leaf split keeps the lower half in the split leaf and moves the upper half
into a new leaf linked directly after it. -/
theorem leafChain_entries_perm [Inhabited V] :
    (∀ (order : Int) (ops : List (Int × V)),
      ∃ t nodes, run order ops = .ok t ∧ leafChain t = .ok nodes ∧
        List.Perm nodes t.heap ∧
        List.Perm (chainEntries nodes) ops ∧
        ∀ node ∈ t.heap, node.keys.length = node.values.length) ∧
    (∀ (heap : List (BPlusNode V)) (a : Nat) (node : BPlusNode V),
      heap[a]? = some node → node.isLeaf = true →
      node.keys.length = node.values.length →
      split heap a =
        .ok (heap.set a
              { node with
                keys := node.keys.take (node.keys.length / 2)
                values := node.values.take (node.keys.length / 2)
                next := some heap.length }
            ++ [⟨true, node.keys.drop (node.keys.length / 2),
                  node.values.drop (node.keys.length / 2), [], node.next⟩])) := by
  refine ⟨?_, fun heap a node h1 h2 h3 => split_leaf heap a node h1 h2 h3⟩
  intro order ops
  have hWF := Shape.insertAll_WF order ops
  have hperm := Shape.insertAll_entries_perm order ops (Shape.empty : Shape V) Shape.empty_WF
  refine ⟨_, _, run_eq_shape order ops, Shape.leafChain_tree order _, ?_, ?_, ?_⟩
  · simp only [Shape.tree, Shape.heap]
    exact List.Perm.cons _ (List.reverse_perm _).symm
  · rw [Shape.chainEntries_eq]
    simpa [Shape.entries, Shape.empty] using hperm
  · intro node hnode
    rcases Shape.mem_heap _ node hnode with rfl | h
    · exact hWF.1
    · exact hWF.2 _ (mem_chainNodes _ _ h).2.2

/-- Witness for C9: the split of the full root leaf 1, 2, 3, 4. -/
theorem leafChain_entries_perm_witness :
    split [(⟨true, [1, 2, 3, 4], ["a", "b", "c", "d"], [], none⟩ : BPlusNode String)] 0 =
      .ok [⟨true, [1, 2], ["a", "b"], [], some 1⟩, ⟨true, [3, 4], ["c", "d"], [], none⟩] :=
  (@leafChain_entries_perm String _).2
    [⟨true, [1, 2, 3, 4], ["a", "b", "c", "d"], [], none⟩] 0
    ⟨true, [1, 2, 3, 4], ["a", "b", "c", "d"], [], none⟩ rfl rfl rfl

/-! ## Construction -/

/-- C7, as stated, fails: constructing a tree with order 2 is not rejected. -/
theorem new_order_two_accepted :
    ¬ ∃ e, (BPlusTree.new 2 : Except Fault (BPlusTree String)) = .error e := by
  rintro ⟨e, h⟩
  exact Except.noConfusion h

/-- C7, amended. Construction performs no validation: for every integer order,
including every order below 3, zero and negative values, the constructor
succeeds and yields a tree whose root is one empty leaf and which stores the
order as given; every sequence of inserts then runs on it without a fault. -/
theorem new_never_fails [Inhabited V] (order : Int) :
    (BPlusTree.new order : Except Fault (BPlusTree V)) =
        .ok ⟨[⟨true, [], [], [], none⟩], some 0, order⟩ ∧
      ∀ ops : List (Int × V), ∃ t, run order ops = .ok t :=
  ⟨rfl, fun ops => ⟨_, run_eq_shape order ops⟩⟩

/-! ## Inserting a key twice -/

theorem lower_bound_vinsert_self (l : List Int) (key : Int) :
    lower_bound (vinsert l (lower_bound l key) key) key = lower_bound l key := by
  induction l with
  | nil => simp [lower_bound, vinsert]
  | cons a l ih =>
    rw [lower_bound_cons]
    by_cases hlt : a < key
    · rw [if_pos hlt, vinsert_cons_succ, lower_bound_cons, if_pos hlt, ih]
    · rw [if_neg hlt, vinsert_zero, lower_bound_cons, if_neg (lt_irrefl key)]

theorem lower_bound_take (l : List Int) (n : Nat) (key : Int) :
    lower_bound (l.take n) key = min n (lower_bound l key) := by
  unfold lower_bound
  rw [← List.take_takeWhile, List.length_take]

theorem getElem?_vinsert_self {α : Type} (l : List α) (pos : Nat) (x : α)
    (h : pos ≤ l.length) : (vinsert l pos x)[pos]? = some x := by
  unfold vinsert
  rw [List.getElem?_append_right (by simp [h])]
  simp [h]

theorem Shape.insert_lookup (order : Int) (s : Shape V) (key : Int) (value v : V)
    (hlen : s.rk.length = s.rv.length)
    (h : (if (s.insert order key value).rk[lower_bound (s.insert order key value).rk key]? =
            some key
          then (s.insert order key value).rv[lower_bound (s.insert order key value).rk key]?
          else none) = some v) :
    v = value := by
  have hpos : lower_bound s.rk key ≤ s.rk.length := lower_bound_le _ _
  have hlb := lower_bound_vinsert_self s.rk key
  have hval := getElem?_vinsert_self s.rv (lower_bound s.rk key) value (by omega)
  unfold Shape.insert at h
  by_cases hge : sizeGeOrder (vinsert s.rk (lower_bound s.rk key) key).length order = true
  · simp only [hge, if_true] at h
    rw [lower_bound_take, hlb] at h
    by_cases hmid : lower_bound s.rk key < (vinsert s.rk (lower_bound s.rk key) key).length / 2
    · rw [min_eq_right (le_of_lt hmid), List.getElem?_take_of_lt hmid,
        List.getElem?_take_of_lt hmid, hval] at h
      split at h
      · exact (Option.some.inj h).symm
      · exact Option.noConfusion h
    · rw [min_eq_left (by omega), List.getElem?_eq_none (by simp)] at h
      simp at h
  · simp only [hge, Bool.false_eq_true, if_false] at h
    rw [hlb, hval] at h
    split at h
    · exact (Option.some.inj h).symm
    · exact Option.noConfusion h

theorem Shape.count_tree (order : Int) (s : Shape V) :
    count (s.tree order) = .ok s.entries.length := by
  unfold count
  rw [Shape.leafChain_tree]
  simp only
  rw [Shape.chainEntries_eq]

/-- C3, as stated, fails: with order 4, after `insert(1, "a")` on the empty tree
the tree stores one entry, and after `insert(1, "b")` it stores two. -/
theorem overwrite_count_grows :
    ¬ (∀ t1 t2, run 4 [((1 : Int), "a")] = .ok t1 → insert t1 1 "b" = .ok t2 →
        search t2 1 = .ok (some "b") ∧ count t2 = count t1) := by
  intro h
  have h2 := (h ⟨[⟨true, [1], ["a"], [], none⟩], some 0, 4⟩
    ⟨[⟨true, [1, 1], ["b", "a"], [], none⟩], some 0, 4⟩ rfl rfl).2
  have hne : (Except.ok 2 : Except Fault Nat) ≠ .ok 1 := by
    intro h'
    exact absurd (Except.ok.inj h') (by decide)
  exact hne h2

/-- C3, amended. Inserting a key a second time does not overwrite: after
`insert(k, v1)` and then `insert(k, v2)` on any tree reached from the empty
tree, both inserts complete, the number of entries stored on the leaf chain is
one more than after the first insert, and `search(k)` completes and, whenever
it returns a found result, that result is `v2`. -/
theorem insert_twice_adds_entry [Inhabited V] (order : Int) (ops : List (Int × V))
    (k : Int) (v1 v2 : V) :
    ∃ t1 t2 n r, run order (ops ++ [(k, v1)]) = .ok t1 ∧ insert t1 k v2 = .ok t2 ∧
      count t1 = .ok n ∧ count t2 = .ok (n + 1) ∧
      search t2 k = .ok r ∧ ∀ v, r = some v → v = v2 := by
  have hWF := Shape.insertAll_WF order (ops ++ [(k, v1)])
  have hWF2 := Shape.insert_WF order _ k v2 hWF
  refine ⟨_, _, _, _, run_eq_shape order _, Shape.insert_tree order _ k v2 hWF.1,
    Shape.count_tree order _, ?_, Shape.search_tree_WF order _ k hWF2.1, ?_⟩
  · rw [Shape.count_tree]
    have h := (Shape.insert_entries_perm order
      (Shape.insertAll order Shape.empty (ops ++ [(k, v1)])) k v2 hWF.1).length_eq
    rw [h, List.length_cons]
  · intro v hv
    exact Shape.insert_lookup order _ k v2 v hWF.1 hv

/-! ## Evaluations at the inputs where the program and its specification part -/

/-- C1 at order 4: after inserting 1, 2, 3 and then `insert(4, "d")`, the root
leaf is split, the entry for 4 sits in the new leaf, and `search(4)` returns
not-found although `search(1)` still finds its value. -/
theorem roundtrip_lost_after_split :
    run 4 [((1 : Int), "a"), (2, "b"), (3, "c"), (4, "d")] =
        .ok ⟨[⟨true, [1, 2], ["a", "b"], [], some 1⟩, ⟨true, [3, 4], ["c", "d"], [], none⟩],
          some 0, 4⟩ ∧
      search (⟨[⟨true, [1, 2], ["a", "b"], [], some 1⟩,
          ⟨true, [3, 4], ["c", "d"], [], none⟩], some 0, 4⟩ : BPlusTree String) 4 = .ok none ∧
      search (⟨[⟨true, [1, 2], ["a", "b"], [], some 1⟩,
          ⟨true, [3, 4], ["c", "d"], [], none⟩], some 0, 4⟩ : BPlusTree String) 1 =
        .ok (some "a") :=
  ⟨rfl, rfl, rfl⟩

/-- C5 at order 4: inserting 1 to 10 in increasing order performs four splits
(the heap holds the root and four split-off leaves), but the root is still a
leaf, no node is internal, and the leaf chain yields
1, 2, 9, 10, 7, 8, 5, 6, 3, 4. -/
theorem fanout_root_stays_leaf :
    ∃ t root nodes,
      run 4 [((1 : Int), "a"), (2, "b"), (3, "c"), (4, "d"), (5, "e"), (6, "f"), (7, "g"),
        (8, "h"), (9, "i"), (10, "j")] = .ok t ∧
      t.heap.length = 5 ∧ t.root = some 0 ∧ t.heap[0]? = some root ∧ root.isLeaf = true ∧
      root.children = [] ∧ t.heap.all (fun n => n.isLeaf) = true ∧
      leafChain t = .ok nodes ∧ chainKeys nodes = [1, 2, 9, 10, 7, 8, 5, 6, 3, 4] :=
  ⟨_, _, _, rfl, rfl, rfl, rfl, rfl, rfl, rfl, rfl, rfl⟩

/-! ## Order of the keys on the leaf chain -/

theorem Shape.insert_leaves_sorted (order : Int) (s : Shape V) (key : Int) (value : V)
    (h : s.rk.Pairwise (fun a b => a ≤ b) ∧ ∀ kv ∈ s.cs, kv.1.Pairwise (fun a b => a ≤ b)) :
    (s.insert order key value).rk.Pairwise (fun a b => a ≤ b) ∧
      ∀ kv ∈ (s.insert order key value).cs, kv.1.Pairwise (fun a b => a ≤ b) := by
  refine ⟨Shape.insert_sorted order s key value h.1, ?_⟩
  have hs := sorted_vinsert_lower_bound s.rk key h.1
  unfold Shape.insert
  by_cases hge : sizeGeOrder (vinsert s.rk (lower_bound s.rk key) key).length order = true
  · simp only [hge, if_true]
    intro kv hkv
    rcases List.mem_cons.1 hkv with rfl | hkv
    · exact hs.sublist (List.drop_sublist _ _)
    · exact h.2 kv hkv
  · simp only [hge, Bool.false_eq_true, if_false]
    exact h.2

theorem chainKeys_eq_map_fst (nodes : List (BPlusNode V))
    (h : ∀ node ∈ nodes, node.keys.length = node.values.length) :
    chainKeys nodes = (chainEntries nodes).map Prod.fst := by
  induction nodes with
  | nil => rfl
  | cons n rest ih =>
    have hn := h n (List.mem_cons_self _ _)
    have hrest := ih (fun node hnode => h node (List.mem_cons_of_mem _ hnode))
    simp only [chainKeys, chainEntries, List.flatMap_cons, List.map_append] at hrest ⊢
    rw [← hrest, List.map_fst_zip _ _ (le_of_eq hn)]

theorem keys_sublist_chainKeys (nodes : List (BPlusNode V)) (node : BPlusNode V)
    (h : node ∈ nodes) : node.keys.Sublist (chainKeys nodes) := by
  induction nodes with
  | nil => simp at h
  | cons n rest ih =>
    simp only [chainKeys, List.flatMap_cons] at ih ⊢
    rcases List.mem_cons.1 h with rfl | h
    · exact List.sublist_append_left _ _
    · exact (ih h).trans (List.sublist_append_right _ _)

/-- C2, as stated, fails: with order 4, inserting the key 1 twice leaves the
chain 1, 1, and inserting the distinct keys 1 to 6 leaves the chain
1, 2, 5, 6, 3, 4; neither is strictly increasing. -/
theorem leafChain_not_strictly_increasing :
    (∃ t nodes, run 4 [((1 : Int), "a"), (1, "b")] = .ok t ∧ leafChain t = .ok nodes ∧
      chainKeys nodes = [1, 1] ∧ ¬ (chainKeys nodes).Pairwise (fun a b => a < b)) ∧
    (∃ t nodes,
      run 4 [((1 : Int), "a"), (2, "b"), (3, "c"), (4, "d"), (5, "e"), (6, "f")] = .ok t ∧
      leafChain t = .ok nodes ∧ chainKeys nodes = [1, 2, 5, 6, 3, 4] ∧
      ¬ (chainKeys nodes).Pairwise (fun a b => a < b)) :=
  ⟨⟨_, _, rfl, rfl, rfl, by decide⟩, ⟨_, _, rfl, rfl, rfl, by decide⟩⟩

/-- C2, amended. For every sequence of inserts applied to the empty tree (of any
order), the leaf chain read from the root yields every inserted key once per
insert (a key inserted twice is stored twice), and inside each leaf of the chain
the keys are in non-decreasing order; when the inserted keys are pairwise
distinct the chain holds no duplicates and the keys inside each leaf are
strictly increasing. Nothing is stated about the order across leaves. -/
theorem leafChain_leaves_sorted [Inhabited V] (order : Int) (ops : List (Int × V)) :
    ∃ t nodes, run order ops = .ok t ∧ leafChain t = .ok nodes ∧
      List.Perm (chainKeys nodes) (ops.map Prod.fst) ∧
      (∀ node ∈ nodes, node.keys.Pairwise (fun a b => a ≤ b)) ∧
      ((ops.map Prod.fst).Nodup →
        (chainKeys nodes).Nodup ∧ ∀ node ∈ nodes, node.keys.Pairwise (fun a b => a < b)) := by
  have hWF := Shape.insertAll_WF order ops
  have hperm := Shape.insertAll_entries_perm order ops (Shape.empty : Shape V) Shape.empty_WF
  have hsorted := Shape.insertAll_inv order
    (fun s : Shape V =>
      s.rk.Pairwise (fun a b => a ≤ b) ∧ ∀ kv ∈ s.cs, kv.1.Pairwise (fun a b => a ≤ b))
    (fun s k v h => Shape.insert_leaves_sorted order s k v h) ops Shape.empty
    ⟨List.Pairwise.nil, by simp [Shape.empty]⟩
  have hlen : ∀ node ∈ (Shape.insertAll order (Shape.empty : Shape V) ops).rootNode ::
      chainNodes (Shape.insertAll order (Shape.empty : Shape V) ops).cs,
      node.keys.length = node.values.length := by
    intro node hnode
    rcases List.mem_cons.1 hnode with rfl | h
    · exact hWF.1
    · exact hWF.2 _ (mem_chainNodes _ _ h).2.2
  have hle : ∀ node ∈ (Shape.insertAll order (Shape.empty : Shape V) ops).rootNode ::
      chainNodes (Shape.insertAll order (Shape.empty : Shape V) ops).cs,
      node.keys.Pairwise (fun a b => a ≤ b) := by
    intro node hnode
    rcases List.mem_cons.1 hnode with rfl | h
    · exact hsorted.1
    · exact hsorted.2 _ (mem_chainNodes _ _ h).2.2
  have hkeys : List.Perm
      (chainKeys ((Shape.insertAll order (Shape.empty : Shape V) ops).rootNode ::
        chainNodes (Shape.insertAll order (Shape.empty : Shape V) ops).cs))
      (ops.map Prod.fst) := by
    rw [chainKeys_eq_map_fst _ hlen, Shape.chainEntries_eq]
    simpa [Shape.entries, Shape.empty] using hperm.map Prod.fst
  refine ⟨_, _, run_eq_shape order ops, Shape.leafChain_tree order _, hkeys, hle, ?_⟩
  intro hnodup
  have hnd := hkeys.nodup_iff.2 hnodup
  refine ⟨hnd, ?_⟩
  intro node hnode
  have hsub := keys_sublist_chainKeys _ node hnode
  have hne : node.keys.Pairwise (fun a b => a ≠ b) := hnd.sublist hsub
  exact (hle node hnode).imp₂ (fun a b h1 h2 => lt_of_le_of_ne h1 h2) hne

end BPlusTree

end UMS
